import Mathlib

set_option maxRecDepth 8000

/-!
Verification of the ChessnutPy board core (`ChessnutAir.py`) against its
natural-language specification.

The Python source is shallowly embedded: byte buffers are lists of naturals,
strings are lists of characters, pieces are represented by their symbol
character, fallible operations (dictionary lookups, indexing, notation
parsing) return `Option`, and the asynchronous notification handler is
modelled as a pure state-transition function that also reports the ordered
list of piece-up / piece-down callback invocations.
-/

/-- Modelled from the spec: the fixed nibble-to-symbol table `convertDict` is
imported from `constants.py`, which is not among the provided source files.
Spec section 3 fixes its shape: twelve piece codes plus the empty symbol.
Nibble `0` denotes the empty square (symbol `' '`) and nibbles `1..12` carry
the twelve piece symbols; any other nibble has no mapping (decode error). -/
def convertDict (n : Nat) : Option Char :=
  if n = 0 then some ' '
  else if n = 1 then some 'q'
  else if n = 2 then some 'k'
  else if n = 3 then some 'b'
  else if n = 4 then some 'p'
  else if n = 5 then some 'n'
  else if n = 6 then some 'R'
  else if n = 7 then some 'P'
  else if n = 8 then some 'r'
  else if n = 9 then some 'B'
  else if n = 10 then some 'N'
  else if n = 11 then some 'Q'
  else if n = 12 then some 'K'
  else none

/-- The symbols accepted by `chess.Piece.from_symbol` (external chess library). -/
def piece_symbols : List Char := ['P', 'N', 'B', 'R', 'Q', 'K', 'p', 'n', 'b', 'r', 'q', 'k']

/-- `chess.Piece.from_symbol`: a piece is represented by its symbol character;
any character that is not a piece symbol raises (modelled as `none`). -/
def piece_from_symbol (c : Char) : Option Char :=
  if c ∈ piece_symbols then some c else none

/-- The piece (as an optional symbol) carried by one nibble of the board buffer:
look the nibble up in `convertDict`; the empty symbol yields no piece.
Totalized helper used to state what the decoder produces (`none` also stands
for the unmapped-nibble case, which the fallible functions track separately). -/
def piece_of_nibble (n : Nat) : Option Char :=
  match convertDict n with
  | some c => if c = ' ' then none else some c
  | none => none

/-- Worker for `board_state_as_square_and_piece`: decode the bytes of the
buffer starting at byte index `i`, failing (like the Python `KeyError`) on a
nibble outside the table. Each byte `b` at index `i` yields the pair for
square `63 - i*2` from its low nibble `b % 16` and the pair for square
`63 - (i*2 + 1)` from its high nibble `b / 16` (`b >> 4`). -/
def decode_squares : List Nat → Nat → Option (List (Nat × Option Char))
  | [], _ => some []
  | b :: rest, i => do
    let str_left ← convertDict (b % 16)
    let str_right ← convertDict (b / 16)
    let tail ← decode_squares rest (i + 1)
    some ((63 - i * 2, if str_left = ' ' then none else some str_left)
      :: (63 - (i * 2 + 1), if str_right = ' ' then none else some str_right)
      :: tail)

/-- `board_state_as_square_and_piece(board_state)`: the generator that yields
`(square, piece)` pairs for byte indices `0..31`. A buffer shorter than 32
bytes raises `IndexError` (modelled as `none`); extra bytes are ignored. -/
def board_state_as_square_and_piece (board_state : List Nat) : Option (List (Nat × Option Char)) :=
  if board_state.length < 32 then none
  else decode_squares (board_state.take 32) 0

/-- The total description of what `decode_squares` yields when every nibble is
mapped: pairs `(63 - i*2, low-nibble piece)` and `(63 - (i*2+1), high-nibble piece)`
for each byte, in byte order. -/
def pairs_from : List Nat → Nat → List (Nat × Option Char)
  | [], _ => []
  | b :: rest, i =>
    (63 - i * 2, piece_of_nibble (b % 16))
      :: (63 - (i * 2 + 1), piece_of_nibble (b / 16))
      :: pairs_from rest (i + 1)

theorem convertDict_none_of_gt (n : Nat) (h : 12 < n) : convertDict n = none := by
  obtain ⟨k, rfl⟩ : ∃ k, n = k + 13 := ⟨n - 13, by omega⟩
  rfl

theorem convertDict_spec (n : Nat) (c : Char) (h : convertDict n = some c) :
    (n = 0 ∧ c = ' ') ∨
      (0 < n ∧ c ∈ piece_symbols ∧ c.isDigit = false ∧ c ≠ '/' ∧ c ≠ ' ' ∧ c ≠ '1') := by
  by_cases hn : 12 < n
  · rw [convertDict_none_of_gt n hn] at h; exact absurd h (by simp)
  · push_neg at hn
    interval_cases n <;> (simp [convertDict] at h; subst h; decide)

theorem piece_of_nibble_good (n : Nat) (c : Char) (h : piece_of_nibble n = some c) :
    c ∈ piece_symbols ∧ c.isDigit = false ∧ c ≠ '/' ∧ c ≠ ' ' ∧ c ≠ '1' := by
  cases hc : convertDict n with
  | none => simp [piece_of_nibble, hc] at h
  | some c0 =>
    simp only [piece_of_nibble, hc] at h
    split_ifs at h with hsp
    injection h with h
    subst h
    rcases convertDict_spec n c0 hc with ⟨_, h2⟩ | ⟨_, h2⟩
    · exact absurd h2 hsp
    · exact ⟨h2.1, h2.2.1, h2.2.2.1, h2.2.2.2.1, h2.2.2.2.2⟩

theorem decode_squares_eq_pairs_from (bs : List Nat) :
    ∀ i, (∀ b ∈ bs, (convertDict (b % 16)).isSome ∧ (convertDict (b / 16)).isSome) →
      decode_squares bs i = some (pairs_from bs i) := by
  induction bs with
  | nil => intro i _; rfl
  | cons b rest ih =>
    intro i hm
    have hb := hm b (List.mem_cons_self b rest)
    rcases Option.isSome_iff_exists.mp hb.1 with ⟨cl, hcl⟩
    rcases Option.isSome_iff_exists.mp hb.2 with ⟨cr, hcr⟩
    have htail := ih (i + 1) (fun x hx => hm x (List.mem_cons_of_mem b hx))
    simp [decode_squares, hcl, hcr, htail, pairs_from, piece_of_nibble]

theorem pairs_from_length (bs : List Nat) : ∀ i, (pairs_from bs i).length = 2 * bs.length := by
  induction bs with
  | nil => intro i; rfl
  | cons b rest ih => intro i; simp [pairs_from, ih (i + 1)]; omega

theorem pairs_from_getElem (bs : List Nat) :
    ∀ i k, k < bs.length →
      (pairs_from bs i)[2 * k]? = some (63 - (i + k) * 2, piece_of_nibble (bs.getD k 0 % 16)) ∧
      (pairs_from bs i)[2 * k + 1]? =
        some (63 - ((i + k) * 2 + 1), piece_of_nibble (bs.getD k 0 / 16)) := by
  induction bs with
  | nil => intro i k hk; simp at hk
  | cons b rest ih =>
    intro i k hk
    match k with
    | 0 => simp [pairs_from]
    | k + 1 =>
      have hk' : k < rest.length := by simpa using hk
      obtain ⟨ih1, ih2⟩ := ih (i + 1) k hk'
      have e1 : i + 1 + k = i + (k + 1) := by omega
      rw [e1] at ih1 ih2
      constructor
      · have e2 : 2 * (k + 1) = 2 * k + 1 + 1 := by omega
        rw [e2]
        simpa [pairs_from] using ih1
      · have e3 : 2 * (k + 1) + 1 = 2 * k + 1 + 1 + 1 := by omega
        rw [e3]
        simpa [pairs_from] using ih2

/-- C1: the decoder `board_state_as_square_and_piece` maps, for each byte index
`i` in `0..31` of a fully-mapped 32-byte buffer, the byte's low nibble to square
`63 - 2*i` and its high nibble to square `63 - (2*i + 1)`, translating each
nibble through the fixed nibble-to-symbol table (the empty symbol yielding no
piece). -/
theorem C1_decoder_square_and_piece (bs : List Nat) (hlen : bs.length = 32)
    (hm : ∀ b ∈ bs, (convertDict (b % 16)).isSome ∧ (convertDict (b / 16)).isSome) :
    ∃ l, board_state_as_square_and_piece bs = some l ∧ l.length = 64 ∧
      ∀ i, i < 32 →
        l[2 * i]? = some (63 - 2 * i, piece_of_nibble (bs.getD i 0 % 16)) ∧
        l[2 * i + 1]? = some (63 - (2 * i + 1), piece_of_nibble (bs.getD i 0 / 16)) := by
  refine ⟨pairs_from bs 0, ?_, ?_, ?_⟩
  · unfold board_state_as_square_and_piece
    rw [if_neg (by omega)]
    rw [List.take_of_length_le (by omega)]
    exact decode_squares_eq_pairs_from bs 0 hm
  · rw [pairs_from_length]; omega
  · intro i hi
    obtain ⟨g1, g2⟩ := pairs_from_getElem bs 0 i (by omega)
    have e1 : (0 + i) * 2 = 2 * i := by omega
    rw [e1] at g1 g2
    exact ⟨g1, g2⟩

/-- Witness for C1: the all-empty buffer. -/
theorem C1_decoder_square_and_piece_witness :
    ∃ l, board_state_as_square_and_piece (List.replicate 32 0) = some l ∧ l.length = 64 ∧
      ∀ i, i < 32 →
        l[2 * i]? = some (63 - 2 * i, piece_of_nibble ((List.replicate 32 0).getD i 0 % 16)) ∧
        l[2 * i + 1]? =
          some (63 - (2 * i + 1), piece_of_nibble ((List.replicate 32 0).getD i 0 / 16)) :=
  C1_decoder_square_and_piece (List.replicate 32 0) (by decide)
    (by intro b hb; rw [List.eq_of_mem_replicate hb]; decide)

/-- `loc_to_pos(location, rev=False)`: two-character square notation.
File letter is `"hgfedcba"[location % 8]`; the rank part is
`str(8 - location // 8)` when `rev` is false and `str(location // 8)` when
`rev` is true. -/
def loc_to_pos (location : Nat) (rev : Bool) : List Char :=
  "hgfedcba".toList.getD (location % 8) ' '
    :: (Nat.repr (if rev then location / 8 else 8 - location / 8)).toList

/-- Build a bitboard from a per-bit predicate: bit `s` of `build_bits f n` is
`f s` for `s < n`. Used to give exact semantics to the external chess
library's bitboard operations. -/
def build_bits (f : Nat → Bool) : Nat → Nat
  | 0 => 0
  | n + 1 => build_bits f n + (if f n then 2 ^ n else 0)

/-- `chess.flip_horizontal` (external chess library): mirror a 64-bit
bitboard along the vertical axis; bit `8*r + f` of the result is bit
`8*r + (7 - f)` of the input. -/
def flip_horizontal (bb : Nat) : Nat :=
  build_bits (fun s => bb.testBit (8 * (s / 8) + (7 - s % 8))) 64

/-- `int.to_bytes(8, byteorder='big')`: the eight bytes of a 64-bit integer,
most significant byte first. -/
def to_bytes_8_be (n : Nat) : List Nat :=
  (List.range 8).map (fun j => n / 2 ^ (8 * (7 - j)) % 256)

/-- The `conv_letter` dictionary of `change_leds` (KeyError modelled by `none`). -/
def conv_letter (c : Char) : Option Nat :=
  if c = 'a' then some 128 else if c = 'b' then some 64 else if c = 'c' then some 32
  else if c = 'd' then some 16 else if c = 'e' then some 8 else if c = 'f' then some 4
  else if c = 'g' then some 2 else if c = 'h' then some 1 else none

/-- The `conv_number` dictionary of `change_leds` (KeyError modelled by `none`). -/
def conv_number (c : Char) : Option Nat :=
  if c = '1' then some 7 else if c = '2' then some 6 else if c = '3' then some 5
  else if c = '4' then some 4 else if c = '5' then some 3 else if c = '6' then some 2
  else if c = '7' then some 1 else if c = '8' then some 0 else none

/-- The three shapes `change_leds` accepts: a `chess.SquareSet` (modelled by
its 64-bit bitboard integer), a list of two-character notation strings, or
`None`. -/
inductive LedArg where
  | squares (bb : Nat)
  | posList (l : List (List Char))
  | null
deriving DecidableEq, Repr

/-- One iteration of the notation-string loop of `change_leds`:
`arr[conv_number[pos[1]]] |= conv_letter[pos[0]]`; IndexError / KeyError on
invalid input is modelled by `none`. -/
def apply_pos (arr : List Nat) (pos : List Char) : Option (List Nat) := do
  let c0 ← pos[0]?
  let c1 ← pos[1]?
  let mask ← conv_letter c0
  let idx ← conv_number c1
  some (arr.set idx (arr.getD idx 0 ||| mask))

/-- `ChessnutAir.change_leds(list_of_pos)`: build the 8-byte LED frame (via
`flip_horizontal` + big-endian bytes for a SquareSet, via the conversion
dictionaries for a notation list) and transmit `self._led_command ++ frame`,
i.e. the two fixed bytes 0x0A 0x08 followed by the frame. `None` returns
before the write (`none` = nothing transmitted). -/
def change_leds : LedArg → Option (List Nat)
  | .squares bb => some ([0x0A, 0x08] ++ to_bytes_8_be (flip_horizontal bb))
  | .null => none
  | .posList l => do
    let arr ← List.foldlM apply_pos [0, 0, 0, 0, 0, 0, 0, 0] l
    some ([0x0A, 0x08] ++ arr)

/-- Spec section 4.5: the frame bit of square `s`, read from the full 10-byte
command. Rank 1 is frame byte 7 down to rank 8 at frame byte 0 (the frame
starts at command byte 2); within a byte, bit 7 is file a down to bit 0 for
file h. -/
def frame_bit (cmd : List Nat) (s : Nat) : Bool :=
  (cmd.getD (2 + (7 - s / 8)) 0).testBit (7 - s % 8)

/-- Spec section 6: the square denoted by a standard two-character notation
string: file letter a..h (character codes 97..104), rank digit 1..8
(character codes 49..56); square = file + 8 * rank, both zero-based. -/
def square_of_pos (pos : List Char) : Option Nat :=
  match pos[0]?, pos[1]? with
  | some c0, some c1 =>
    if 97 ≤ c0.toNat ∧ c0.toNat ≤ 104 ∧ 49 ≤ c1.toNat ∧ c1.toNat ≤ 56 then
      some ((c0.toNat - 97) + 8 * (c1.toNat - 49))
    else none
  | _, _ => none

/-- Spec side: whether a square is in an illumination request. -/
def request_has : LedArg → Nat → Bool
  | .squares bb, s => bb.testBit s
  | .posList l, s => l.any (fun pos => square_of_pos pos = some s)
  | .null, _ => false

theorem build_bits_lt (f : Nat → Bool) : ∀ n, build_bits f n < 2 ^ n := by
  intro n
  induction n with
  | zero => simp [build_bits]
  | succ n ih =>
    have h2 : 2 ^ (n + 1) = 2 ^ n + 2 ^ n := by ring
    simp only [build_bits]
    split_ifs <;> omega

theorem build_bits_testBit (f : Nat → Bool) :
    ∀ n t, t < n → (build_bits f n).testBit t = f t := by
  intro n
  induction n with
  | zero => intro t ht; omega
  | succ n ih =>
    intro t ht
    by_cases htn : t < n
    · simp only [build_bits]
      cases hf : f n
      · simpa using ih t htn
      · rw [if_pos rfl, Nat.add_comm, Nat.testBit_two_pow_add_gt htn]
        exact ih t htn
    · have htn2 : t = n := by omega
      subst htn2
      simp only [build_bits]
      cases hf : f t
      · simpa using Nat.testBit_lt_two_pow (build_bits_lt f t)
      · rw [if_pos rfl, Nat.add_comm, Nat.testBit_two_pow_add_eq,
          Nat.testBit_lt_two_pow (build_bits_lt f t)]
        rfl

theorem flip_horizontal_testBit (bb t : Nat) (ht : t < 64) :
    (flip_horizontal bb).testBit t = bb.testBit (8 * (t / 8) + (7 - t % 8)) :=
  build_bits_testBit _ 64 t ht

/-- C7 counterexample: with the reversed flag set, `loc_to_pos 0` returns
"h0" — its rank digit '0' is not in '1'..'8', refuting the claim that the
rank digit is in 1-8 for both values of the flag. -/
theorem C7_loc_to_pos_counterexample :
    loc_to_pos 0 true = ['h', '0'] ∧ ¬('1' ≤ '0' ∧ '0' ≤ '8') := by
  decide

/-- C7 (amended): for every square 0-63, `loc_to_pos` returns a two-character
string whose file letter is in a-h, taken from "hgfedcba" at index
`square % 8` (reversed a-h order); the rank digit is the digit of
`8 - square / 8` (in 1-8) when the reversed flag is false, and the digit of
`square / 8` (zero-based: in 0-7, not 1-8) when the flag is true; the flag
swaps which physical edge ranks count from. -/
theorem C7_loc_to_pos_amended (location : Nat) (h : location < 64) (rev : Bool) :
    (loc_to_pos location rev).length = 2 ∧
    ('a' ≤ (loc_to_pos location rev).getD 0 ' ' ∧ (loc_to_pos location rev).getD 0 ' ' ≤ 'h') ∧
    (loc_to_pos location rev).getD 0 ' ' = "hgfedcba".toList.getD (location % 8) ' ' ∧
    (loc_to_pos location rev).getD 1 ' ' =
      Nat.digitChar (if rev then location / 8 else 8 - location / 8) ∧
    (rev = false →
      '1' ≤ (loc_to_pos location rev).getD 1 ' ' ∧ (loc_to_pos location rev).getD 1 ' ' ≤ '8') ∧
    (rev = true →
      '0' ≤ (loc_to_pos location rev).getD 1 ' ' ∧ (loc_to_pos location rev).getD 1 ' ' ≤ '7') := by
  interval_cases location <;> cases rev <;> decide

/-- Witness for the amended C7 at square 12 (e2), unreversed. -/
theorem C7_loc_to_pos_amended_witness :
    (loc_to_pos 12 false).length = 2 ∧
    ('a' ≤ (loc_to_pos 12 false).getD 0 ' ' ∧ (loc_to_pos 12 false).getD 0 ' ' ≤ 'h') ∧
    (loc_to_pos 12 false).getD 0 ' ' = "hgfedcba".toList.getD (12 % 8) ' ' ∧
    (loc_to_pos 12 false).getD 1 ' ' = Nat.digitChar (if false then 12 / 8 else 8 - 12 / 8) ∧
    (false = false →
      '1' ≤ (loc_to_pos 12 false).getD 1 ' ' ∧ (loc_to_pos 12 false).getD 1 ' ' ≤ '8') ∧
    (false = true →
      '0' ≤ (loc_to_pos 12 false).getD 1 ' ' ∧ (loc_to_pos 12 false).getD 1 ' ' ≤ '7') :=
  C7_loc_to_pos_amended 12 (by decide) false

theorem conv_letter_sem (c : Char) (m : Nat) (h : conv_letter c = some m) :
    ∃ fn, fn < 8 ∧ c.toNat = 97 + fn ∧ m = 2 ^ (7 - fn) := by
  unfold conv_letter at h
  split_ifs at h with h1 h2 h3 h4 h5 h6 h7 h8 <;> injection h with h <;> subst h
  · exact ⟨0, by decide, by subst h1; decide, by decide⟩
  · exact ⟨1, by decide, by subst h2; decide, by decide⟩
  · exact ⟨2, by decide, by subst h3; decide, by decide⟩
  · exact ⟨3, by decide, by subst h4; decide, by decide⟩
  · exact ⟨4, by decide, by subst h5; decide, by decide⟩
  · exact ⟨5, by decide, by subst h6; decide, by decide⟩
  · exact ⟨6, by decide, by subst h7; decide, by decide⟩
  · exact ⟨7, by decide, by subst h8; decide, by decide⟩

theorem conv_number_sem (c : Char) (i : Nat) (h : conv_number c = some i) :
    ∃ rk, rk < 8 ∧ c.toNat = 49 + rk ∧ i = 7 - rk := by
  unfold conv_number at h
  split_ifs at h with h1 h2 h3 h4 h5 h6 h7 h8 <;> injection h with h <;> subst h
  · exact ⟨0, by decide, by subst h1; decide, by decide⟩
  · exact ⟨1, by decide, by subst h2; decide, by decide⟩
  · exact ⟨2, by decide, by subst h3; decide, by decide⟩
  · exact ⟨3, by decide, by subst h4; decide, by decide⟩
  · exact ⟨4, by decide, by subst h5; decide, by decide⟩
  · exact ⟨5, by decide, by subst h6; decide, by decide⟩
  · exact ⟨6, by decide, by subst h7; decide, by decide⟩
  · exact ⟨7, by decide, by subst h8; decide, by decide⟩

theorem getD_set_self (arr : List Nat) (k1 w : Nat) (hk : k1 < arr.length) :
    (arr.set k1 w).getD k1 0 = w := by
  rw [List.getD_eq_getElem?_getD, List.getElem?_set_self (by simpa using hk)]
  rfl

theorem getD_set_ne (arr : List Nat) (k1 k2 w : Nat) (hk : k1 ≠ k2) :
    (arr.set k1 w).getD k2 0 = arr.getD k2 0 := by
  rw [List.getD_eq_getElem?_getD, List.getElem?_set_ne hk, ← List.getD_eq_getElem?_getD]

theorem apply_pos_sem (arr : List Nat) (hlen : arr.length = 8) (pos : List Char)
    (c0 c1 : Char) (h0 : pos[0]? = some c0) (h1 : pos[1]? = some c1)
    (m : Nat) (hm : conv_letter c0 = some m) (idx : Nat) (hi : conv_number c1 = some idx) :
    ∃ arr2 sp, apply_pos arr pos = some arr2 ∧ arr2.length = 8 ∧
      square_of_pos pos = some sp ∧ sp < 64 ∧
      ∀ s, s < 64 →
        (arr2.getD (7 - s / 8) 0).testBit (7 - s % 8) =
          ((arr.getD (7 - s / 8) 0).testBit (7 - s % 8) || decide (s = sp)) := by
  obtain ⟨fn, hfn, hc0, hmv⟩ := conv_letter_sem c0 m hm
  obtain ⟨rk, hrk, hc1, hiv⟩ := conv_number_sem c1 idx hi
  refine ⟨arr.set idx (arr.getD idx 0 ||| m), fn + 8 * rk, ?_, ?_, ?_, by omega, ?_⟩
  · simp [apply_pos, h0, h1, hm, hi]
  · simp [List.length_set, hlen]
  · simp only [square_of_pos, h0, h1]
    rw [if_pos (by omega)]
    congr 1
    omega
  · intro s hs
    by_cases hj : 7 - s / 8 = idx
    · rw [hj, getD_set_self _ _ _ (by omega), hmv, Nat.testBit_lor, Nat.testBit_two_pow]
      have hiff : (7 - fn = 7 - s % 8) ↔ (s = fn + 8 * rk) := by omega
      rw [decide_eq_decide.mpr hiff]
    · rw [getD_set_ne _ _ _ _ (fun hh => hj hh.symm)]
      have hne : ¬(s = fn + 8 * rk) := by omega
      simp [hne]

/-- A notation string `change_leds` accepts without raising: two readable
characters with dictionary entries. -/
def valid_pos (pos : List Char) : Prop :=
  ∃ c0 c1, pos[0]? = some c0 ∧ pos[1]? = some c1 ∧
    (conv_letter c0).isSome ∧ (conv_number c1).isSome

theorem foldlM_apply_pos_sem (l : List (List Char)) :
    ∀ arr, arr.length = 8 → (∀ pos ∈ l, valid_pos pos) →
      ∃ arr2, List.foldlM apply_pos arr l = some arr2 ∧ arr2.length = 8 ∧
        ∀ s, s < 64 →
          (arr2.getD (7 - s / 8) 0).testBit (7 - s % 8) =
            ((arr.getD (7 - s / 8) 0).testBit (7 - s % 8) ||
              l.any (fun pos => square_of_pos pos = some s)) := by
  induction l with
  | nil => intro arr hlen _; exact ⟨arr, rfl, hlen, by simp⟩
  | cons pos t ih =>
    intro arr hlen hv
    obtain ⟨c0, c1, h0, h1, hm0, hi0⟩ := hv pos (List.mem_cons_self pos t)
    rcases Option.isSome_iff_exists.mp hm0 with ⟨m, hm⟩
    rcases Option.isSome_iff_exists.mp hi0 with ⟨idx, hi⟩
    obtain ⟨arr1, sp, ha, hlen1, hsq, hsp, hbit⟩ :=
      apply_pos_sem arr hlen pos c0 c1 h0 h1 m hm idx hi
    obtain ⟨arr2, hf, hlen2, hbit2⟩ :=
      ih arr1 hlen1 (fun p hp => hv p (List.mem_cons_of_mem pos hp))
    refine ⟨arr2, ?_, hlen2, ?_⟩
    · rw [List.foldlM_cons, ha]
      simpa using hf
    · intro s hs
      rw [hbit2 s hs, hbit s hs]
      by_cases hssp : s = sp
      · subst hssp; simp [hsq]
      · have hss : sp ≠ s := fun hh => hssp hh.symm
        simp [hsq, hssp, hss]

theorem to_bytes_getD (n j : Nat) (hj : j < 8) :
    (to_bytes_8_be n).getD j 0 = n / 2 ^ (8 * (7 - j)) % 256 := by
  interval_cases j <;> rfl

theorem change_leds_squares_frame_bit (bb : Nat) (s : Nat) (hs : s < 64) :
    frame_bit ([0x0A, 0x08] ++ to_bytes_8_be (flip_horizontal bb)) s = bb.testBit s := by
  unfold frame_bit
  have e2 : 2 + (7 - s / 8) = (7 - s / 8) + 1 + 1 := by omega
  rw [e2]
  simp only [List.cons_append, List.nil_append, List.getD_cons_succ]
  rw [to_bytes_getD _ _ (by omega)]
  have e3 : 7 - (7 - s / 8) = s / 8 := by omega
  rw [e3, show (256 : Nat) = 2 ^ 8 by norm_num, Nat.testBit_mod_two_pow,
    ← Nat.shiftRight_eq_div_pow, Nat.testBit_shiftRight,
    flip_horizontal_testBit bb _ (by omega)]
  have e4 : (8 * (s / 8) + (7 - s % 8)) / 8 = s / 8 := by omega
  have e5 : (8 * (s / 8) + (7 - s % 8)) % 8 = 7 - s % 8 := by omega
  rw [e4, e5]
  have e6 : 8 * (s / 8) + (7 - (7 - s % 8)) = s := by omega
  rw [e6]
  have e7 : 7 - s % 8 < 8 := by omega
  simp [e7]

/-- C5: for every non-null illumination request (SquareSet bitboard, or a
list of valid square-notation strings), the outbound LED command is exactly
10 bytes: the fixed head bytes 0x0A 0x08 followed by an 8-byte frame where
rank 1 maps to frame byte 7 down to rank 8 at frame byte 0, bit 7 of a byte
is file a down to bit 0 for file h, and a bit is set iff the corresponding
square is in the request. -/
theorem C5_led_command (arg : LedArg) (hn : arg ≠ LedArg.null)
    (hv : ∀ l, arg = LedArg.posList l → ∀ pos ∈ l, valid_pos pos) :
    ∃ cmd, change_leds arg = some cmd ∧ cmd.length = 10 ∧
      cmd.getD 0 0 = 0x0A ∧ cmd.getD 1 0 = 0x08 ∧
      ∀ s, s < 64 → frame_bit cmd s = request_has arg s := by
  match arg with
  | .null => exact absurd rfl hn
  | .squares bb =>
    refine ⟨[0x0A, 0x08] ++ to_bytes_8_be (flip_horizontal bb), rfl, ?_, rfl, rfl, ?_⟩
    · simp [to_bytes_8_be]
    · intro s hs
      exact change_leds_squares_frame_bit bb s hs
  | .posList l =>
    obtain ⟨arr2, hf, hlen2, hbit⟩ :=
      foldlM_apply_pos_sem l [0, 0, 0, 0, 0, 0, 0, 0] rfl (hv l rfl)
    refine ⟨[0x0A, 0x08] ++ arr2, ?_, ?_, by simp, by simp, ?_⟩
    · simp only [change_leds]
      rw [hf]
      rfl
    · simp [hlen2]
    · intro s hs
      have hz : ∀ j, ([0, 0, 0, 0, 0, 0, 0, 0] : List Nat).getD j 0 = 0 := by
        intro j
        rcases j with _ | _ | _ | _ | _ | _ | _ | _ | j <;> rfl
      unfold frame_bit
      have e2 : 2 + (7 - s / 8) = (7 - s / 8) + 1 + 1 := by omega
      rw [e2]
      simp only [List.cons_append, List.nil_append, List.getD_cons_succ]
      rw [hbit s hs, hz]
      simp [request_has]

/-- Witness for C5: the single-square SquareSet containing e4 (square 28). -/
theorem C5_led_command_witness :
    ∃ cmd, change_leds (LedArg.squares (2 ^ 28)) = some cmd ∧ cmd.length = 10 ∧
      cmd.getD 0 0 = 0x0A ∧ cmd.getD 1 0 = 0x08 ∧
      ∀ s, s < 64 → frame_bit cmd s = request_has (LedArg.squares (2 ^ 28)) s :=
  C5_led_command (LedArg.squares (2 ^ 28)) (fun h => LedArg.noConfusion h)
    (fun _ h => LedArg.noConfusion h)

/-- C8: `change_leds` on an empty request — the empty SquareSet (bitboard 0)
or the empty notation list — transmits the command whose 8-byte frame is all
zeros (clearing every LED), whereas `change_leds(None)` performs no write at
all (`none`: nothing transmitted, LED state left as it was). -/
theorem C8_empty_request_vs_null :
    change_leds (LedArg.squares 0) = some [0x0A, 0x08, 0, 0, 0, 0, 0, 0, 0, 0] ∧
    change_leds (LedArg.posList []) = some [0x0A, 0x08, 0, 0, 0, 0, 0, 0, 0, 0] ∧
    change_leds LedArg.null = none := by
  refine ⟨by decide, rfl, rfl⟩

/-- The LED-relevant state of a `ChessnutAir` object: the steady
(`to_light`) and blinking (`to_blink`) SquareSets, as bitboards, and the
blink tick flag. -/
structure LedState where
  to_light : Nat
  to_blink : Nat
  tick : Bool
deriving DecidableEq, Repr

/-- `ChessnutAir.blink_tick(sleep_time)`: flip the tick flag; on the "on"
tick transmit the frame for `to_blink.union(to_light)` (SquareSet union =
bitwise or of the bitboards), on the "off" tick the frame for `to_light`
alone; then sleep for `sleep_time` when it is positive. Durations are
modelled as exact integers; the third component is how long the call
sleeps. -/
def blink_tick (s : LedState) (sleep_time : Int) : LedState × Option (List Nat) × Int :=
  let t := !s.tick
  let cmd := if t then change_leds (LedArg.squares (s.to_blink ||| s.to_light))
             else change_leds (LedArg.squares s.to_light)
  (⟨s.to_light, s.to_blink, t⟩, cmd, if 0 < sleep_time then sleep_time else 0)

/-- C9: each `blink_tick` invocation toggles the tick flag and then renders
the union of the steady and blinking sets when the (new) flag is on and the
steady set alone when it is off; with steady = {e4} (square 28) and
blinking = {e5} (square 36), the emitted frame lights exactly e4 on an off
tick and exactly e4 and e5 on an on tick. -/
theorem C9_blink_tick (s : LedState) (st : Int) :
    ((blink_tick s st).1.tick = !s.tick) ∧
    (∃ cmd, (blink_tick s st).2.1 = some cmd ∧
      ∀ sq, sq < 64 → frame_bit cmd sq =
        (if !s.tick then s.to_light.testBit sq || s.to_blink.testBit sq
         else s.to_light.testBit sq)) ∧
    (∀ sq, sq < 64 →
      frame_bit (((blink_tick ⟨2 ^ 28, 2 ^ 36, true⟩ 0).2.1).getD []) sq =
        decide (sq = 28)) ∧
    (∀ sq, sq < 64 →
      frame_bit (((blink_tick ⟨2 ^ 28, 2 ^ 36, false⟩ 0).2.1).getD []) sq =
        (decide (sq = 28) || decide (sq = 36))) := by
  refine ⟨rfl, ?_, by decide, by decide⟩
  cases htk : s.tick
  · refine ⟨[0x0A, 0x08] ++ to_bytes_8_be (flip_horizontal (s.to_blink ||| s.to_light)),
      by simp [blink_tick, htk, change_leds], ?_⟩
    intro sq hsq
    rw [change_leds_squares_frame_bit _ sq hsq, Nat.testBit_lor]
    simp [Bool.or_comm]
  · refine ⟨[0x0A, 0x08] ++ to_bytes_8_be (flip_horizontal s.to_light),
      by simp [blink_tick, htk, change_leds], ?_⟩
    intro sq hsq
    rw [change_leds_squares_frame_bit _ sq hsq]
    simp

/-- Witness for C9: the scenario state itself, about to produce an off tick. -/
theorem C9_blink_tick_witness :
    ((blink_tick ⟨2 ^ 28, 2 ^ 36, true⟩ 1).1.tick = !true) ∧
    (∃ cmd, (blink_tick ⟨2 ^ 28, 2 ^ 36, true⟩ 1).2.1 = some cmd ∧
      ∀ sq, sq < 64 → frame_bit cmd sq =
        (if !true then (2 ^ 28 : Nat).testBit sq || (2 ^ 36 : Nat).testBit sq
         else (2 ^ 28 : Nat).testBit sq)) ∧
    (∀ sq, sq < 64 →
      frame_bit (((blink_tick ⟨2 ^ 28, 2 ^ 36, true⟩ 0).2.1).getD []) sq =
        decide (sq = 28)) ∧
    (∀ sq, sq < 64 →
      frame_bit (((blink_tick ⟨2 ^ 28, 2 ^ 36, false⟩ 0).2.1).getD []) sq =
        (decide (sq = 28) || decide (sq = 36))) :=
  C9_blink_tick ⟨2 ^ 28, 2 ^ 36, true⟩ 1

/-- A callback invocation made by the notification handler: `piece_up` or
`piece_down`, with the square and the piece (symbol) passed to it. -/
inductive Event where
  | pieceUp (square : Nat) (piece : Char)
  | pieceDown (square : Nat) (piece : Char)
deriving DecidableEq, Repr

/-- The inner `send_message(loc, old, new)` of `_handler`: no call when the
nibbles are equal; `piece_up(loc, Piece.from_symbol(convertDict[old]))` when
the new nibble is 0, else `piece_down(loc, Piece.from_symbol(convertDict[new]))`.
A `KeyError` (nibble outside the table) or a `from_symbol` failure is `none`. -/
def send_message (loc old new : Nat) : Option (List Event) :=
  if old ≠ new then
    if new = 0 then
      match convertDict old with
      | some sym => (piece_from_symbol sym).map (fun p => [Event.pieceUp loc p])
      | none => none
    else
      match convertDict new with
      | some sym => (piece_from_symbol sym).map (fun p => [Event.pieceDown loc p])
      | none => none
  else some []

/-- The detection loop of `_handler` (`for i in range(32)`), started at byte
index `i` with the given fuel (32 at the top level). Skips equal bytes; for
a changed byte compares the low nibbles, then the high nibbles, through
`send_message`. Returns the events emitted in order and `true`, or — when an
exception aborts the loop (index out of range or unmapped nibble) — the
events emitted before the error and `false`. -/
def detect (rdata od : List Nat) : Nat → Nat → List Event × Bool
  | _, 0 => ([], true)
  | i, fuel + 1 =>
    match rdata[i]?, od[i]? with
    | some rb, some ob =>
      if rb ≠ ob then
        match send_message (63 - i * 2) (ob % 16) (rb % 16) with
        | none => ([], false)
        | some e1 =>
          match send_message (63 - (i * 2 + 1)) (ob / 16) (rb / 16) with
          | none => (e1, false)
          | some e2 =>
            let r := detect rdata od (i + 1) fuel
            (e1 ++ e2 ++ r.1, r.2)
      else detect rdata od (i + 1) fuel
    | _, _ => ([], false)

/-- The handler-relevant state of a `ChessnutAir` object. -/
structure AirState where
  board_state : List Nat
  old_data : List Nat
  board_changed : Bool
deriving DecidableEq, Repr

/-- `ChessnutAir._handler(char, data)`: slice `rdata = data[2:34]`; if it
differs from `_old_data`, set the changed flag, replace `board_state` and
`_old_data` with the slice, and only then walk the byte indexes with the
detection loop. The result is the new state, the callback invocations made,
and whether the walk completed (`false`: an exception aborted it after the
state had already been replaced). -/
def handler (s : AirState) (data : List Nat) : AirState × List Event × Bool :=
  let rdata := (data.drop 2).take 32
  if rdata ≠ s.old_data then
    let r := detect rdata s.old_data 0 32
    ({ board_state := rdata, old_data := rdata, board_changed := true }, r.1, r.2)
  else (s, [], true)

/-- Spec section 4.2, for one nibble position: no event when the nibble is
unchanged; a piece-up event carrying the old nibble's piece when the new
nibble is 0; otherwise a piece-down event carrying the new nibble's piece. -/
def spec_nibble_events (square old new : Nat) : List Event :=
  if old = new then []
  else if new = 0 then [Event.pieceUp square ((convertDict old).getD ' ')]
  else [Event.pieceDown square ((convertDict new).getD ' ')]

/-- Spec section 4.2, for byte index `i`: the low-nibble events for square
`63 - 2*i` first, then the high-nibble events for square `63 - (2*i + 1)`. -/
def spec_byte_events (od nd : List Nat) (i : Nat) : List Event :=
  spec_nibble_events (63 - 2 * i) (od.getD i 0 % 16) (nd.getD i 0 % 16) ++
    spec_nibble_events (63 - (2 * i + 1)) (od.getD i 0 / 16) (nd.getD i 0 / 16)

theorem send_message_spec (loc old new : Nat)
    (ho : (convertDict old).isSome) (hn : (convertDict new).isSome) :
    send_message loc old new = some (spec_nibble_events loc old new) := by
  unfold send_message spec_nibble_events
  by_cases he : old = new
  · simp [he]
  · rw [if_pos he, if_neg he]
    by_cases hz : new = 0
    · rcases Option.isSome_iff_exists.mp ho with ⟨c, hc⟩
      rcases convertDict_spec old c hc with ⟨h0, _⟩ | ⟨_, hmem, _⟩
      · exact absurd (h0.trans hz.symm) he
      · simp [hz, hc, piece_from_symbol, hmem]
    · rcases Option.isSome_iff_exists.mp hn with ⟨c, hc⟩
      rcases convertDict_spec new c hc with ⟨h0, _⟩ | ⟨_, hmem, _⟩
      · exact absurd h0 hz
      · simp [hz, hc, piece_from_symbol, hmem]

theorem getElem?_eq_some_getD (l : List Nat) (i : Nat) (h : i < l.length) :
    l[i]? = some (l.getD i 0) := by
  rw [List.getElem?_eq_getElem h, List.getD_eq_getElem?_getD, List.getElem?_eq_getElem h]
  rfl

theorem getD_mem (l : List Nat) (i : Nat) (h : i < l.length) : l.getD i 0 ∈ l := by
  rw [List.getD_eq_getElem?_getD, List.getElem?_eq_getElem h]
  exact List.getElem_mem h

theorem detect_spec (nd od : List Nat) (h1 : od.length = 32) (h2 : nd.length = 32)
    (hmo : ∀ b ∈ od, (convertDict (b % 16)).isSome ∧ (convertDict (b / 16)).isSome)
    (hmn : ∀ b ∈ nd, (convertDict (b % 16)).isSome ∧ (convertDict (b / 16)).isSome) :
    ∀ fuel i, i + fuel ≤ 32 →
      detect nd od i fuel = ((List.range' i fuel).flatMap (spec_byte_events od nd), true) := by
  intro fuel
  induction fuel with
  | zero => intro i hi; simp [detect]
  | succ fuel ih =>
    intro i hi
    have hio : i < od.length := by omega
    have hin : i < nd.length := by omega
    have hgo := getElem?_eq_some_getD od i hio
    have hgn := getElem?_eq_some_getD nd i hin
    have hbo := hmo (od.getD i 0) (getD_mem od i hio)
    have hbn := hmn (nd.getD i 0) (getD_mem nd i hin)
    have hsml := send_message_spec (63 - i * 2) (od.getD i 0 % 16) (nd.getD i 0 % 16)
      hbo.1 hbn.1
    have hsmr := send_message_spec (63 - (i * 2 + 1)) (od.getD i 0 / 16) (nd.getD i 0 / 16)
      hbo.2 hbn.2
    have hrest := ih (i + 1) (by omega)
    have hrange : List.range' i (fuel + 1) = i :: List.range' (i + 1) fuel :=
      List.range'_succ i fuel 1
    rw [hrange]
    by_cases hb : nd.getD i 0 = od.getD i 0
    · have hnib1 : od.getD i 0 % 16 = nd.getD i 0 % 16 := by rw [hb]
      have hnib2 : od.getD i 0 / 16 = nd.getD i 0 / 16 := by rw [hb]
      have hsb : spec_byte_events od nd i = [] := by
        unfold spec_byte_events spec_nibble_events
        rw [if_pos hnib1, if_pos hnib2]
        rfl
      simp only [detect, hgo, hgn]
      rw [if_neg (not_not_intro hb), hrest, List.flatMap_cons, hsb, List.nil_append]
    · have e1 : 63 - i * 2 = 63 - 2 * i := by omega
      have e2 : 63 - (i * 2 + 1) = 63 - (2 * i + 1) := by omega
      simp only [detect, hgo, hgn]
      rw [if_pos hb]
      simp only [hsml, hsmr, hrest, List.flatMap_cons]
      unfold spec_byte_events
      rw [e1, e2]

/-- C2: for 32-byte buffers `od` (retained) and `nd` (incoming) whose nibbles
all have piece-symbol mappings, the detection loop of `_handler` completes
and emits, in byte-ascending order with the low nibble of each byte before
its high nibble, exactly the events the spec prescribes per differing nibble
(piece-up with the old piece when the new nibble is 0, piece-down with the
new piece otherwise); in particular equal buffers yield no events. -/
theorem C2_change_detector (od nd : List Nat) (h1 : od.length = 32) (h2 : nd.length = 32)
    (hmo : ∀ b ∈ od, (convertDict (b % 16)).isSome ∧ (convertDict (b / 16)).isSome)
    (hmn : ∀ b ∈ nd, (convertDict (b % 16)).isSome ∧ (convertDict (b / 16)).isSome) :
    detect nd od 0 32 = ((List.range 32).flatMap (spec_byte_events od nd), true) ∧
    (od = nd → detect nd od 0 32 = ([], true)) := by
  have hm := detect_spec nd od h1 h2 hmo hmn 32 0 (by omega)
  constructor
  · rw [List.range_eq_range']
    exact hm
  · intro he
    subst he
    have hz : ∀ i, spec_byte_events od od i = [] := by
      intro i
      unfold spec_byte_events spec_nibble_events
      simp
    have hall : ∀ (l : List Nat), l.flatMap (spec_byte_events od od) = [] := by
      intro l
      induction l with
      | nil => rfl
      | cons a t iht => simp [List.flatMap_cons, hz a, iht]
    rw [hm, hall]

/-- Witness for C2: old buffer all empty, new buffer with a pawn nibble
in the low half of byte 0 (square 63). -/
theorem C2_change_detector_witness :
    detect (4 :: List.replicate 31 0) (List.replicate 32 0) 0 32 =
      ((List.range 32).flatMap
        (spec_byte_events (List.replicate 32 0) (4 :: List.replicate 31 0)), true) ∧
    (List.replicate 32 0 = 4 :: List.replicate 31 0 →
      detect (4 :: List.replicate 31 0) (List.replicate 32 0) 0 32 = ([], true)) :=
  C2_change_detector (List.replicate 32 0) (4 :: List.replicate 31 0)
    (by decide) (by decide) (by decide) (by decide)

/-- C3 counterexample: a payload whose first board byte is 13 — its low
nibble has no piece-symbol mapping, so decoding the update fails — yet after
`_handler` processes it, the retained `board_state` and previous buffer are
the new malformed slice, not their prior values: the update is not dropped
and prior state is not retained. -/
theorem C3_counterexample :
    (handler ⟨List.replicate 32 0, List.replicate 32 0, false⟩
        ([0, 0, 13] ++ List.replicate 31 0)).2.2 = false ∧
    (handler ⟨List.replicate 32 0, List.replicate 32 0, false⟩
        ([0, 0, 13] ++ List.replicate 31 0)).1.board_state ≠ List.replicate 32 0 ∧
    (handler ⟨List.replicate 32 0, List.replicate 32 0, false⟩
        ([0, 0, 13] ++ List.replicate 31 0)).1.old_data ≠ List.replicate 32 0 := by
  decide

/-- C3 (amended): on any payload whose 32-byte slice differs from the
retained previous buffer — including malformed ones (a nibble with no
piece-symbol mapping, or a payload shorter than expected) — `_handler`
replaces `board_state` and the previous buffer with the new slice and sets
the changed flag BEFORE the event walk in which a decode error can surface;
the error only truncates event dispatch (completion flag `false`), so the
prior state is not retained and the malformed update is not dropped.
Subsequent updates are diffed against the stored slice as usual. -/
theorem C3_amended_state_replaced (s : AirState) (data : List Nat)
    (h : (data.drop 2).take 32 ≠ s.old_data) :
    (handler s data).1.board_state = (data.drop 2).take 32 ∧
    (handler s data).1.old_data = (data.drop 2).take 32 ∧
    (handler s data).1.board_changed = true := by
  simp only [handler]
  rw [if_pos h]
  exact ⟨rfl, rfl, rfl⟩

/-- Witness for the amended C3: the malformed payload of the counterexample. -/
theorem C3_amended_state_replaced_witness :
    (handler ⟨List.replicate 32 0, List.replicate 32 0, false⟩
        ([0, 0, 13] ++ List.replicate 31 0)).1.board_state =
      ((([0, 0, 13] ++ List.replicate 31 0).drop 2).take 32) ∧
    (handler ⟨List.replicate 32 0, List.replicate 32 0, false⟩
        ([0, 0, 13] ++ List.replicate 31 0)).1.old_data =
      ((([0, 0, 13] ++ List.replicate 31 0).drop 2).take 32) ∧
    (handler ⟨List.replicate 32 0, List.replicate 32 0, false⟩
        ([0, 0, 13] ++ List.replicate 31 0)).1.board_changed = true :=
  C3_amended_state_replaced ⟨List.replicate 32 0, List.replicate 32 0, false⟩
    ([0, 0, 13] ++ List.replicate 31 0) (by decide)

/-- One observable step of `_handler`, in source order: a field assignment
or a callback invocation. -/
inductive HandlerAction where
  | set_board_changed (b : Bool)
  | set_board_state (bs : List Nat)
  | set_old_data (od : List Nat)
  | callback (e : Event)
deriving DecidableEq, Repr

/-- The observable steps `_handler` performs, in the order of the source
statements: when the slice differs, first `_board_changed = True`, then
`board_state = rdata`, then `_old_data = rdata`, and only then the callbacks
of the detection loop (those emitted before any decode error). -/
def handler_trace (s : AirState) (data : List Nat) : List HandlerAction :=
  let rdata := (data.drop 2).take 32
  if rdata ≠ s.old_data then
    HandlerAction.set_board_changed true :: HandlerAction.set_board_state rdata :: HandlerAction.set_old_data rdata
      :: (detect rdata s.old_data 0 32).1.map HandlerAction.callback
  else []

/-- Replay the state effect of a prefix of the trace (callbacks leave the
fields unchanged). -/
def run_actions (s : AirState) : List HandlerAction → AirState
  | [] => s
  | HandlerAction.set_board_changed b :: rest => run_actions { s with board_changed := b } rest
  | HandlerAction.set_board_state bs :: rest => run_actions { s with board_state := bs } rest
  | HandlerAction.set_old_data od :: rest => run_actions { s with old_data := od } rest
  | HandlerAction.callback _ :: rest => run_actions s rest

theorem run_actions_callbacks (s : AirState) (l : List Event) :
    ∀ k, run_actions s ((l.map HandlerAction.callback).take k) = s := by
  induction l generalizing s with
  | nil => intro k; cases k <;> rfl
  | cons e t ih =>
    intro k
    cases k with
    | zero => rfl
    | succ k => simpa [run_actions] using ih s k

/-- C10 (implicit invariant): whenever `_handler` processes a payload whose
32-byte slice differs from the retained previous buffer, every callback in
the trace occurs strictly after the three field assignments, and at the
moment each callback is invoked the replayed state already has both
`board_state` and the previous buffer equal to the new slice — so every
piece-up/piece-down callback of the update (and any notation query it makes)
observes the post-change state. -/
theorem C10_callbacks_see_new_state (s : AirState) (data : List Nat) (j : Nat) (e : Event)
    (h : (handler_trace s data)[j]? = some (HandlerAction.callback e)) :
    3 ≤ j ∧
    (run_actions s ((handler_trace s data).take j)).board_state = (data.drop 2).take 32 ∧
    (run_actions s ((handler_trace s data).take j)).old_data = (data.drop 2).take 32 := by
  by_cases hne : (data.drop 2).take 32 ≠ s.old_data
  · have htr : handler_trace s data =
        HandlerAction.set_board_changed true :: HandlerAction.set_board_state ((data.drop 2).take 32)
          :: HandlerAction.set_old_data ((data.drop 2).take 32)
          :: ((detect ((data.drop 2).take 32) s.old_data 0 32).1.map HandlerAction.callback) := by
      simp only [handler_trace]
      rw [if_pos hne]
    rw [htr] at h ⊢
    match j with
    | 0 => exact absurd h (by simp)
    | 1 => exact absurd h (by simp)
    | 2 => exact absurd h (by simp)
    | k + 3 =>
      refine ⟨by omega, ?_⟩
      simp only [List.take_succ_cons, run_actions]
      rw [run_actions_callbacks]
      exact ⟨rfl, rfl⟩
  · have htr : handler_trace s data = [] := by
      simp only [handler_trace]
      rw [if_neg hne]
    rw [htr] at h
    exact absurd h (by simp)

/-- Witness for C10: the first callback (index 3) of an update placing a
pawn nibble in byte 0 of an all-empty board. -/
theorem C10_callbacks_see_new_state_witness :
    3 ≤ 3 ∧
    (run_actions ⟨List.replicate 32 0, List.replicate 32 0, false⟩
        ((handler_trace ⟨List.replicate 32 0, List.replicate 32 0, false⟩
          ([0, 0, 4] ++ List.replicate 31 0)).take 3)).board_state =
      ((([0, 0, 4] ++ List.replicate 31 0).drop 2).take 32) ∧
    (run_actions ⟨List.replicate 32 0, List.replicate 32 0, false⟩
        ((handler_trace ⟨List.replicate 32 0, List.replicate 32 0, false⟩
          ([0, 0, 4] ++ List.replicate 31 0)).take 3)).old_data =
      ((([0, 0, 4] ++ List.replicate 31 0).drop 2).take 32) :=
  C10_callbacks_see_new_state ⟨List.replicate 32 0, List.replicate 32 0, false⟩
    ([0, 0, 4] ++ List.replicate 31 0) 3 (Event.pieceDown 63 'p') (by decide)

/-- The sleep argument `board_has_changed` passes to `blink_tick`:
`sleep_time if sleep_time < timeout or timeout == 0.0 else timeout`. -/
def bhc_sleep_arg (timeout sleep_time : Int) : Int :=
  if sleep_time < timeout ∨ timeout = 0 then sleep_time else timeout

/-- `end_time = time.time() + timeout if timeout > 0 else math.inf`, with
`none` standing for infinity and `t0` for the clock value at entry. -/
def bhc_end_time (t0 timeout : Int) : Option Int :=
  if 0 < timeout then some (t0 + timeout) else none

/-- `time.time() >= end_time`, for a possibly-infinite end time. -/
def past_deadline (e : Option Int) (t : Int) : Bool :=
  match e with
  | some e0 => decide (e0 ≤ t)
  | none => false

/-- The `while not self._board_changed` loop of `board_has_changed`. Time is
modelled by exact integers: `changed t` is the value of the flag when the
loop condition is evaluated at time `t`, and each iteration checks the flag,
then the deadline, then calls `blink_tick`, whose sleep advances the clock
by its third component. `fuel` bounds how many iterations are unrolled;
`none` means the loop had not returned within the fuel (e.g. the infinite
wait). -/
def bhc_loop (changed : Int → Bool) (e : Option Int) (sleep : Int) :
    LedState → Int → Nat → Option (Bool × Int)
  | _, _, 0 => none
  | ls, t, fuel + 1 =>
    if changed t then some (true, t)
    else if past_deadline e t then some (false, t)
    else
      let r := blink_tick ls sleep
      bhc_loop changed e sleep r.1 (t + r.2.2) fuel

/-- `ChessnutAir.board_has_changed(timeout, sleep_time)`, entered at clock
value `t0` (the flag reset at entry is absorbed into the `changed` oracle). -/
def board_has_changed (changed : Int → Bool) (ls : LedState) (t0 timeout sleep_time : Int)
    (fuel : Nat) : Option (Bool × Int) :=
  bhc_loop changed (bhc_end_time t0 timeout) (bhc_sleep_arg timeout sleep_time) ls t0 fuel

theorem bhc_loop_sound (changed : Int → Bool) (e : Option Int) (sleep : Int) :
    ∀ fuel ls t b tf, bhc_loop changed e sleep ls t fuel = some (b, tf) →
      (b = true → changed tf = true) ∧
      (b = false → changed tf = false ∧ past_deadline e tf = true) := by
  intro fuel
  induction fuel with
  | zero => intro ls t b tf h; exact absurd h (by simp [bhc_loop])
  | succ fuel ih =>
    intro ls t b tf h
    simp only [bhc_loop] at h
    by_cases h1 : changed t
    · rw [if_pos h1] at h
      injection h with h
      injection h with hb ht
      subst hb
      subst ht
      exact ⟨fun _ => h1, fun hf => absurd hf (by simp)⟩
    · rw [if_neg h1] at h
      by_cases h2 : past_deadline e t = true
      · rw [if_pos h2] at h
        injection h with h
        injection h with hb ht
        subst hb
        subst ht
        exact ⟨fun ht2 => absurd ht2 (by simp), fun _ => ⟨by simpa using h1, h2⟩⟩
      · rw [if_neg h2] at h
        exact ih _ _ b tf h
  
theorem bhc_loop_no_false (changed : Int → Bool) (sleep : Int) :
    ∀ fuel ls t tf, bhc_loop changed none sleep ls t fuel ≠ some (false, tf) := by
  intro fuel
  induction fuel with
  | zero => intro ls t tf; simp [bhc_loop]
  | succ fuel ih =>
    intro ls t tf
    simp only [bhc_loop]
    by_cases h1 : changed t
    · rw [if_pos h1]
      simp
    · rw [if_neg h1]
      have : past_deadline none t = false := rfl
      rw [this]
      simp only [Bool.false_eq_true, if_false]
      exact ih _ _ tf

/-- C6 (amended): whenever the wait-for-change loop returns, it returns True
exactly on observing the board-changed flag, and False only with the flag
unobserved and the deadline elapsed; a timeout of zero or negative disables
the deadline (the loop can never return False: an infinite wait); and each
blink-scheduler invocation inside the loop sleeps for an interval capped by
the TOTAL timeout when that is positive — not by the remaining timeout, so
the loop can overshoot the deadline by up to one sleep interval. -/
theorem C6_board_has_changed_amended (changed : Int → Bool) (ls : LedState)
    (t0 timeout sleep_time : Int) (fuel : Nat) :
    (∀ b t, board_has_changed changed ls t0 timeout sleep_time fuel = some (b, t) →
      (b = true → changed t = true) ∧
      (b = false → changed t = false ∧ past_deadline (bhc_end_time t0 timeout) t = true)) ∧
    (timeout ≤ 0 → ∀ t,
      board_has_changed changed ls t0 timeout sleep_time fuel ≠ some (false, t)) ∧
    (0 < timeout → bhc_sleep_arg timeout sleep_time ≤ timeout) := by
  refine ⟨?_, ?_, ?_⟩
  · intro b t h
    exact bhc_loop_sound changed (bhc_end_time t0 timeout) (bhc_sleep_arg timeout sleep_time)
      fuel ls t0 b t h
  · intro hto t
    have he : bhc_end_time t0 timeout = none := by
      unfold bhc_end_time
      rw [if_neg (by omega)]
    unfold board_has_changed
    rw [he]
    exact bhc_loop_no_false changed (bhc_sleep_arg timeout sleep_time) fuel ls t0 t
  · intro hto
    unfold bhc_sleep_arg
    split_ifs with h
    · rcases h with h | h
      · omega
      · omega
    · omega

/-- C6 counterexample: timeout 5, sleep_time 2, flag never set. The loop
returns False at time 6, strictly past the deadline 0 + 5: had every sleep
been capped by the remaining timeout, the clock could never pass the
deadline, so the claim's "interval capped by the remaining timeout" is
false; the code caps the sleep by the total timeout only (here 2 < 5, so it
sleeps 2 even when 1 remains). -/
theorem C6_counterexample :
    board_has_changed (fun _ => false) ⟨0, 0, false⟩ 0 5 2 10 = some (false, 6) ∧
    bhc_sleep_arg 5 2 = 2 ∧ ((0 : Int) + 5 < 6) := by
  refine ⟨by decide, by decide, by decide⟩

/-- Witness for the amended C6: flag set from time 1; with timeout 5 and
sleep 2 the loop observes it at time 2 and returns True. -/
theorem C6_board_has_changed_amended_witness :
    (fun t => decide ((1 : Int) ≤ t)) 2 = true ∧ bhc_sleep_arg 5 2 ≤ 5 :=
  ⟨((C6_board_has_changed_amended (fun t => decide ((1 : Int) ≤ t)) ⟨0, 0, false⟩ 0 5 2 10).1
      true 2 (by decide)).1 rfl,
    (C6_board_has_changed_amended (fun t => decide ((1 : Int) ≤ t)) ⟨0, 0, false⟩ 0 5 2 10).2.2
      (by decide)⟩

/-- `str(empty_count)` as appended by `handle_empties` (empty when the
counter is 0, since `handle_empties` only fires on a positive count). -/
def flush (ec : Nat) : List Char := if 0 < ec then (Nat.repr ec).toList else []

/-- One iteration of the `board_state_as_fen` loop over the decoded
`(square, piece)` pairs, on state `(fen, empty_count)`: if a piece is
present, `handle_empties()` then append its symbol, else bump the counter;
then, if the square lies on file a (`square % 8 == 0`, i.e. membership in
`chess.SquareSet(chess.BB_FILE_A)`), `handle_empties()` and append `'/'`. -/
def fen_step (st : List Char × Nat) (sp : Nat × Option Char) : List Char × Nat :=
  let fe1 : List Char × Nat :=
    match sp.2 with
    | some c => (st.1 ++ flush st.2 ++ [c], 0)
    | none => (st.1, st.2 + 1)
  if sp.1 % 8 = 0 then (fe1.1 ++ flush fe1.2 ++ ['/'], 0) else fe1

/-- Python `s.split(sep)` for a one-character separator. -/
def split_char (sep : Char) : List Char → List (List Char)
  | [] => [[]]
  | c :: t =>
    if c = sep then [] :: split_char sep t
    else
      match split_char sep t with
      | [] => [[c]]
      | h :: r => (c :: h) :: r

/-- Python `sep.join(rows)` for a one-character separator. -/
def join_char (sep : Char) : List (List Char) → List Char
  | [] => []
  | [x] => x
  | x :: y :: t => x ++ sep :: join_char sep (y :: t)

/-- `ChessnutAir.board_state_as_fen()`: run the loop over the decoded pairs,
drop the trailing rank separator (`fen[:-1]`), split on `'/'`, reverse the
characters of each row (sensor order is mirrored within a rank) and rejoin
with `'/'`. Decode errors propagate (`none`). -/
def board_state_as_fen (bs : List Nat) : Option (List Char) := do
  let pairs ← board_state_as_square_and_piece bs
  let fen := (pairs.foldl fen_step ([], 0)).1
  let rows := split_char '/' fen.dropLast
  some (join_char '/' (rows.map List.reverse))

/-- The per-character digit expansion of `convert_fen`:
`"1" * int(p) if p.isdigit() and p != '1' else p`. -/
def expand_char (c : Char) : List Char :=
  if c.isDigit ∧ c ≠ '1' then List.replicate (c.toNat - 48) '1' else [c]

/-- `convert_fen(fen)` inside `compare_board_state_to_fen`: keep the first
whitespace-delimited field (`fen.split()[0]`; `none` models the IndexError
when the string has no field) and expand each digit into that many `'1'`
markers. -/
def convert_fen (fen : List Char) : Option (List Char) :=
  let f := (fen.dropWhile (fun c => c = ' ')).takeWhile (fun c => c ≠ ' ')
  if f = [] then none
  else some (f.flatMap expand_char)

/-- The comparison loop of `compare_board_state_to_fen`: for each decoded
`(square, piece)` read `target[square]` (IndexError modelled by `none`),
interpret `'1'` as expected-empty and any other character through
`Piece.from_symbol`, and collect the triples `(piece, square, new_piece)`
where they differ, in iteration order. -/
def compare_diffs (target : List Char) : List (Nat × Option Char) →
    Option (List (Option Char × Nat × Option Char))
  | [] => some []
  | (square, piece) :: t => do
    let c ← target[square]?
    let new_piece ← if c = '1' then some none else (piece_from_symbol c).map some
    let rest ← compare_diffs target t
    some ((if piece = new_piece then [] else [(piece, square, new_piece)]) ++ rest)

/-- `ChessnutAir.compare_board_state_to_fen(target_fen)`: build the target
marker string — convert the notation, split on `'/'`, reverse the rank
order, concatenate — then diff the decoded board against it square by
square. -/
def compare_board_state_to_fen (bs : List Nat) (target_fen : List Char) :
    Option (List (Option Char × Nat × Option Char)) := do
  let cf ← convert_fen target_fen
  let target := ((split_char '/' cf).reverse).flatten
  let pairs ← board_state_as_square_and_piece bs
  compare_diffs target pairs

/-- Run-length encoding of a rank segment with no separator: the string
emitted by the loop for pieces `ps` starting from empty-counter `e`, and the
counter left pending at the end. -/
def rle_nf : List (Option Char) → Nat → List Char × Nat
  | [], ec => ([], ec)
  | none :: t, ec => rle_nf t (ec + 1)
  | some c :: t, ec => (flush ec ++ c :: (rle_nf t 0).1, (rle_nf t 0).2)

/-- The complete run-length encoding of one rank (pending counter flushed). -/
def rle_full (ps : List (Option Char)) : List Char :=
  (rle_nf ps 0).1 ++ flush (rle_nf ps 0).2

/-- The decoded pieces of a buffer, grouped four bytes (eight squares) per
rank, in the decoder's square-descending order. -/
def ranks_pieces : List Nat → List (List (Option Char))
  | b0 :: b1 :: b2 :: b3 :: rest =>
    [piece_of_nibble (b0 % 16), piece_of_nibble (b0 / 16),
     piece_of_nibble (b1 % 16), piece_of_nibble (b1 / 16),
     piece_of_nibble (b2 % 16), piece_of_nibble (b2 / 16),
     piece_of_nibble (b3 % 16), piece_of_nibble (b3 / 16)] :: ranks_pieces rest
  | _ => []

/-- The target marker of a square: `'1'` for empty, the symbol otherwise. -/
def marker_of : Option Char → Char
  | none => '1'
  | some c => c

theorem piece_symbols_props :
    ∀ c ∈ piece_symbols,
      c.isDigit = false ∧ c ≠ '/' ∧ c ≠ ' ' ∧ c ≠ '1' ∧ expand_char c = [c] := by
  decide

theorem flush_chars (ec : Nat) (h : ec ≤ 9) :
    ∀ ch ∈ flush ec, ch.isDigit = true ∧ ch ≠ '/' ∧ ch ≠ ' ' := by
  interval_cases ec <;> decide

theorem expand_flush (ec : Nat) (h : ec ≤ 9) :
    (flush ec).flatMap expand_char = List.replicate ec '1' := by
  interval_cases ec <;> decide

theorem expand_char_reverse (c : Char) : (expand_char c).reverse = expand_char c := by
  unfold expand_char
  split_ifs
  · exact List.reverse_replicate _ _
  · rfl

theorem expand_reverse (l : List Char) :
    (l.reverse).flatMap expand_char = (l.flatMap expand_char).reverse := by
  induction l with
  | nil => rfl
  | cons c t ih =>
    simp only [List.reverse_cons, List.flatMap_append, List.flatMap_cons, List.reverse_append,
      ih, List.flatMap_nil, List.append_nil, expand_char_reverse]

theorem split_char_no_sep (sep : Char) : ∀ x : List Char, sep ∉ x → split_char sep x = [x] := by
  intro x
  induction x with
  | nil => intro _; rfl
  | cons c t ih =>
    intro h
    have hc : c ≠ sep := fun hh => h (by simp [hh])
    have ht := ih (fun hh => h (List.mem_cons_of_mem c hh))
    simp only [split_char]
    rw [if_neg hc, ht]

theorem split_char_append (sep : Char) :
    ∀ (x rest : List Char), sep ∉ x →
      split_char sep (x ++ sep :: rest) = x :: split_char sep rest := by
  intro x
  induction x with
  | nil => intro rest _; simp [split_char]
  | cons c t ih =>
    intro rest h
    have hc : c ≠ sep := fun hh => h (by simp [hh])
    have ht := ih rest (fun hh => h (List.mem_cons_of_mem c hh))
    simp only [List.cons_append, split_char, List.append_eq]
    rw [if_neg hc, ht]

theorem split_join (sep : Char) :
    ∀ rows : List (List Char), rows ≠ [] → (∀ r ∈ rows, sep ∉ r) →
      split_char sep (join_char sep rows) = rows := by
  intro rows
  induction rows with
  | nil => intro h _; exact absurd rfl h
  | cons x t ih =>
    intro _ hfree
    cases t with
    | nil =>
      simp only [join_char]
      exact split_char_no_sep sep x (hfree x (by simp))
    | cons y t2 =>
      simp only [join_char]
      rw [split_char_append sep x _ (hfree x (by simp))]
      rw [ih (by simp) (fun r hr => hfree r (List.mem_cons_of_mem x hr))]

theorem join_char_chars (sep : Char) :
    ∀ rows : List (List Char), ∀ ch ∈ join_char sep rows, ch = sep ∨ ∃ r ∈ rows, ch ∈ r := by
  intro rows
  induction rows with
  | nil => intro ch h; simp [join_char] at h
  | cons x t ih =>
    intro ch h
    cases t with
    | nil =>
      simp only [join_char] at h
      exact Or.inr ⟨x, by simp, h⟩
    | cons y t2 =>
      simp only [join_char] at h
      rcases List.mem_append.mp h with h | h
      · exact Or.inr ⟨x, by simp, h⟩
      · rcases List.mem_cons.mp h with h | h
        · exact Or.inl h
        · rcases ih ch h with h | ⟨r, hr, hcr⟩
          · exact Or.inl h
          · exact Or.inr ⟨r, List.mem_cons_of_mem x hr, hcr⟩

theorem expand_join (rows : List (List Char)) :
    (join_char '/' rows).flatMap expand_char =
      join_char '/' (rows.map (fun r => r.flatMap expand_char)) := by
  induction rows with
  | nil => rfl
  | cons x t ih =>
    cases t with
    | nil => simp [join_char]
    | cons y t2 =>
      simp only [join_char, List.map_cons] at ih ⊢
      rw [List.flatMap_append, List.flatMap_cons]
      rw [show expand_char '/' = ['/'] by decide]
      rw [ih]
      simp

theorem rle_nf_counter_le (ps : List (Option Char)) :
    ∀ e, (rle_nf ps e).2 ≤ e + ps.length := by
  induction ps with
  | nil => intro e; simp [rle_nf]
  | cons p t ih =>
    intro e
    cases p with
    | none =>
      simp only [rle_nf, List.length_cons]
      have := ih (e + 1)
      omega
    | some c =>
      simp only [rle_nf, List.length_cons]
      have := ih 0
      omega

theorem rle_nf_chars (ps : List (Option Char)) :
    ∀ e, e + ps.length ≤ 9 → (∀ c, some c ∈ ps → c ∈ piece_symbols) →
      ∀ ch ∈ (rle_nf ps e).1,
        (ch.isDigit = true ∨ ch ∈ piece_symbols) ∧ ch ≠ '/' ∧ ch ≠ ' ' := by
  induction ps with
  | nil => intro e _ _ ch h; simp [rle_nf] at h
  | cons p t ih =>
    intro e hle hgood ch h
    cases p with
    | none =>
      simp only [rle_nf] at h
      exact ih (e + 1) (by simp at hle ⊢; omega)
        (fun c hc => hgood c (List.mem_cons_of_mem none hc)) ch h
    | some c0 =>
      simp only [rle_nf] at h
      rcases List.mem_append.mp h with h | h
      · have hf := flush_chars e (by simp at hle; omega) ch h
        exact ⟨Or.inl hf.1, hf.2.1, hf.2.2⟩
      · rcases List.mem_cons.mp h with h | h
        · subst h
          have hc0 := hgood ch (by simp)
          have := piece_symbols_props ch hc0
          exact ⟨Or.inr hc0, this.2.1, this.2.2.1⟩
        · exact ih 0 (by simp at hle ⊢; omega)
            (fun c hc => hgood c (List.mem_cons_of_mem (some c0) hc)) ch h

theorem rle_full_chars (r : List (Option Char)) (hlen : r.length ≤ 9)
    (hgood : ∀ c, some c ∈ r → c ∈ piece_symbols) :
    ∀ ch ∈ rle_full r, (ch.isDigit = true ∨ ch ∈ piece_symbols) ∧ ch ≠ '/' ∧ ch ≠ ' ' := by
  intro ch h
  rcases List.mem_append.mp h with h | h
  · exact rle_nf_chars r 0 (by omega) hgood ch h
  · have hle : (rle_nf r 0).2 ≤ 9 := (rle_nf_counter_le r 0).trans (by omega)
    have hf := flush_chars _ hle ch h
    exact ⟨Or.inl hf.1, hf.2.1, hf.2.2⟩

theorem expand_rle (ps : List (Option Char)) :
    ∀ e, e + ps.length ≤ 9 → (∀ c, some c ∈ ps → c ∈ piece_symbols) →
      ((rle_nf ps e).1 ++ flush (rle_nf ps e).2).flatMap expand_char =
        List.replicate e '1' ++ ps.map marker_of := by
  induction ps with
  | nil =>
    intro e hle _
    simp only [rle_nf, List.nil_append, List.map_nil, List.append_nil]
    exact expand_flush e (by simpa using hle)
  | cons p t ih =>
    intro e hle hgood
    cases p with
    | none =>
      simp only [rle_nf, List.map_cons, marker_of]
      rw [ih (e + 1) (by simp at hle ⊢; omega)
        (fun c hc => hgood c (List.mem_cons_of_mem none hc))]
      rw [List.replicate_succ']
      simp
    | some c0 =>
      have hc0 : c0 ∈ piece_symbols := hgood c0 (by simp)
      have hprops := piece_symbols_props c0 hc0
      have hIH := ih 0 (by simp at hle ⊢; omega)
        (fun c hc => hgood c (List.mem_cons_of_mem (some c0) hc))
      simp only [List.replicate_zero, List.nil_append] at hIH
      simp only [rle_nf, List.map_cons, marker_of]
      rw [List.append_assoc, List.flatMap_append, expand_flush e (by simp at hle; omega)]
      simp only [List.cons_append, List.flatMap_cons, hprops.2.2.2.2, hIH]
      simp

theorem expand_rev_rle_full (r : List (Option Char)) (hlen : r.length ≤ 9)
    (hgood : ∀ c, some c ∈ r → c ∈ piece_symbols) :
    ((rle_full r).reverse).flatMap expand_char = (r.map marker_of).reverse := by
  rw [expand_reverse]
  unfold rle_full
  rw [expand_rle r 0 (by omega) hgood]
  simp


theorem rle_nf_append (xs ys : List (Option Char)) :
    ∀ e, rle_nf (xs ++ ys) e =
      ((rle_nf xs e).1 ++ (rle_nf ys (rle_nf xs e).2).1, (rle_nf ys (rle_nf xs e).2).2) := by
  induction xs with
  | nil => intro e; simp [rle_nf]
  | cons x t ih =>
    intro e
    cases x with
    | none =>
      simp only [List.cons_append, rle_nf]
      exact ih (e + 1)
    | some c =>
      simp only [List.cons_append, rle_nf, List.append_eq]
      rw [ih 0]
      simp [List.append_assoc]

theorem foldl_fen_step_nf :
    ∀ (pairs : List (Nat × Option Char)) (f0 : List Char) (e0 : Nat),
      (∀ p ∈ pairs, p.1 % 8 ≠ 0) →
      pairs.foldl fen_step (f0, e0) =
        (f0 ++ (rle_nf (pairs.map Prod.snd) e0).1, (rle_nf (pairs.map Prod.snd) e0).2) := by
  intro pairs
  induction pairs with
  | nil => intro f0 e0 _; simp [rle_nf]
  | cons p t ih =>
    intro f0 e0 hnb
    obtain ⟨sq, pc⟩ := p
    have hsq : sq % 8 ≠ 0 := hnb (sq, pc) (by simp)
    cases pc with
    | none =>
      have hstep : fen_step (f0, e0) (sq, none) = (f0, e0 + 1) := by
        simp only [fen_step]
        rw [if_neg hsq]
      rw [List.foldl_cons, hstep, ih f0 (e0 + 1) (fun q hq => hnb q (List.mem_cons_of_mem _ hq))]
      simp [rle_nf]
    | some c =>
      have hstep : fen_step (f0, e0) (sq, some c) = (f0 ++ flush e0 ++ [c], 0) := by
        simp only [fen_step]
        rw [if_neg hsq]
      rw [List.foldl_cons, hstep, ih _ 0 (fun q hq => hnb q (List.mem_cons_of_mem _ hq))]
      simp [rle_nf, List.append_assoc]

theorem fen_step_boundary_none (f : List Char) (e sq : Nat) (h : sq % 8 = 0) :
    fen_step (f, e) (sq, none) = (f ++ flush (e + 1) ++ ['/'], 0) := by
  simp only [fen_step]
  rw [if_pos h]

theorem fen_step_boundary_some (f : List Char) (e sq : Nat) (c : Char) (h : sq % 8 = 0) :
    fen_step (f, e) (sq, some c) = (f ++ flush e ++ [c] ++ ['/'], 0) := by
  simp only [fen_step]
  rw [if_pos h]
  simp [flush, List.append_assoc]

theorem foldl_fen_step_board :
    ∀ (m : Nat) (bs : List Nat) (f0 : List Char), bs.length = 4 * m → m ≤ 8 →
      (pairs_from bs (4 * (8 - m))).foldl fen_step (f0, 0) =
        (f0 ++ ((ranks_pieces bs).map (fun r => rle_full r ++ ['/'])).flatten, 0) := by
  intro m
  induction m with
  | zero =>
    intro bs f0 hlen _
    have hnil : bs = [] := List.eq_nil_of_length_eq_zero (by omega)
    subst hnil
    simp [pairs_from, ranks_pieces]
  | succ m ih =>
    intro bs f0 hlen hm
    rcases bs with _ | ⟨b0, bs⟩
    · simp at hlen
    rcases bs with _ | ⟨b1, bs⟩
    · simp at hlen; omega
    rcases bs with _ | ⟨b2, bs⟩
    · simp at hlen; omega
    rcases bs with _ | ⟨b3, rest⟩
    · simp at hlen; omega
    have hrest_len : rest.length = 4 * m := by simp at hlen; omega
    have hm7 : m ≤ 7 := by omega
    have hsplit : pairs_from (b0 :: b1 :: b2 :: b3 :: rest) (4 * (8 - (m + 1))) =
        [(63 - (4 * (8 - (m + 1))) * 2, piece_of_nibble (b0 % 16)),
         (63 - ((4 * (8 - (m + 1))) * 2 + 1), piece_of_nibble (b0 / 16)),
         (63 - (4 * (8 - (m + 1)) + 1) * 2, piece_of_nibble (b1 % 16)),
         (63 - ((4 * (8 - (m + 1)) + 1) * 2 + 1), piece_of_nibble (b1 / 16)),
         (63 - (4 * (8 - (m + 1)) + 2) * 2, piece_of_nibble (b2 % 16)),
         (63 - ((4 * (8 - (m + 1)) + 2) * 2 + 1), piece_of_nibble (b2 / 16)),
         (63 - (4 * (8 - (m + 1)) + 3) * 2, piece_of_nibble (b3 % 16))] ++
        ((63 - ((4 * (8 - (m + 1)) + 3) * 2 + 1), piece_of_nibble (b3 / 16))
          :: pairs_from rest (4 * (8 - (m + 1)) + 4)) := rfl
    rw [hsplit, List.foldl_append]
    rw [foldl_fen_step_nf _ f0 0 ?hnb]
    case hnb =>
      intro p hp
      simp only [List.mem_cons, List.not_mem_nil, or_false] at hp
      rcases hp with rfl | rfl | rfl | rfl | rfl | rfl | rfl <;> (simp only []; omega)
    simp only [List.map_cons, List.map_nil]
    rw [List.foldl_cons]
    have hsq8 : (63 - ((4 * (8 - (m + 1)) + 3) * 2 + 1)) % 8 = 0 := by omega
    have hidx : 4 * (8 - (m + 1)) + 4 = 4 * (8 - m) := by omega
    have hranks : ranks_pieces (b0 :: b1 :: b2 :: b3 :: rest) =
        [piece_of_nibble (b0 % 16), piece_of_nibble (b0 / 16),
         piece_of_nibble (b1 % 16), piece_of_nibble (b1 / 16),
         piece_of_nibble (b2 % 16), piece_of_nibble (b2 / 16),
         piece_of_nibble (b3 % 16), piece_of_nibble (b3 / 16)] :: ranks_pieces rest := rfl
    have hrank8 : ([piece_of_nibble (b0 % 16), piece_of_nibble (b0 / 16),
         piece_of_nibble (b1 % 16), piece_of_nibble (b1 / 16),
         piece_of_nibble (b2 % 16), piece_of_nibble (b2 / 16),
         piece_of_nibble (b3 % 16), piece_of_nibble (b3 / 16)] : List (Option Char)) =
        [piece_of_nibble (b0 % 16), piece_of_nibble (b0 / 16),
         piece_of_nibble (b1 % 16), piece_of_nibble (b1 / 16),
         piece_of_nibble (b2 % 16), piece_of_nibble (b2 / 16),
         piece_of_nibble (b3 % 16)] ++ [piece_of_nibble (b3 / 16)] := rfl
    rw [hranks]
    simp only [List.map_cons, List.flatten_cons]
    rw [hrank8]
    cases hpc : piece_of_nibble (b3 / 16) with
    | none =>
      rw [fen_step_boundary_none _ _ _ hsq8, hidx, ih rest _ hrest_len (by omega)]
      have hrle : rle_full
          ([piece_of_nibble (b0 % 16), piece_of_nibble (b0 / 16),
            piece_of_nibble (b1 % 16), piece_of_nibble (b1 / 16),
            piece_of_nibble (b2 % 16), piece_of_nibble (b2 / 16),
            piece_of_nibble (b3 % 16)] ++ [none]) =
          (rle_nf [piece_of_nibble (b0 % 16), piece_of_nibble (b0 / 16),
            piece_of_nibble (b1 % 16), piece_of_nibble (b1 / 16),
            piece_of_nibble (b2 % 16), piece_of_nibble (b2 / 16),
            piece_of_nibble (b3 % 16)] 0).1 ++
          flush ((rle_nf [piece_of_nibble (b0 % 16), piece_of_nibble (b0 / 16),
            piece_of_nibble (b1 % 16), piece_of_nibble (b1 / 16),
            piece_of_nibble (b2 % 16), piece_of_nibble (b2 / 16),
            piece_of_nibble (b3 % 16)] 0).2 + 1) := by
        unfold rle_full
        rw [rle_nf_append]
        simp [rle_nf]
      rw [hrle]
      simp [List.append_assoc]
    | some c =>
      rw [fen_step_boundary_some _ _ _ _ hsq8, hidx, ih rest _ hrest_len (by omega)]
      have hrle : rle_full
          ([piece_of_nibble (b0 % 16), piece_of_nibble (b0 / 16),
            piece_of_nibble (b1 % 16), piece_of_nibble (b1 / 16),
            piece_of_nibble (b2 % 16), piece_of_nibble (b2 / 16),
            piece_of_nibble (b3 % 16)] ++ [some c]) =
          (rle_nf [piece_of_nibble (b0 % 16), piece_of_nibble (b0 / 16),
            piece_of_nibble (b1 % 16), piece_of_nibble (b1 / 16),
            piece_of_nibble (b2 % 16), piece_of_nibble (b2 / 16),
            piece_of_nibble (b3 % 16)] 0).1 ++
          flush (rle_nf [piece_of_nibble (b0 % 16), piece_of_nibble (b0 / 16),
            piece_of_nibble (b1 % 16), piece_of_nibble (b1 / 16),
            piece_of_nibble (b2 % 16), piece_of_nibble (b2 / 16),
            piece_of_nibble (b3 % 16)] 0).2 ++ [c] := by
        unfold rle_full
        rw [rle_nf_append]
        simp [rle_nf, flush]
      rw [hrle]
      simp [List.append_assoc]

theorem ranks_pieces_length :
    ∀ (m : Nat) (bs : List Nat), bs.length = 4 * m → (ranks_pieces bs).length = m := by
  intro m
  induction m with
  | zero =>
    intro bs hlen
    have hnil : bs = [] := List.eq_nil_of_length_eq_zero (by omega)
    subst hnil
    rfl
  | succ m ih =>
    intro bs hlen
    rcases bs with _ | ⟨b0, bs⟩
    · simp at hlen
    rcases bs with _ | ⟨b1, bs⟩
    · simp at hlen; omega
    rcases bs with _ | ⟨b2, bs⟩
    · simp at hlen; omega
    rcases bs with _ | ⟨b3, rest⟩
    · simp at hlen; omega
    have hrest : rest.length = 4 * m := by simp at hlen; omega
    simp only [ranks_pieces, List.length_cons]
    rw [ih rest hrest]

theorem ranks_pieces_facts :
    ∀ (m : Nat) (bs : List Nat), bs.length = 4 * m →
      ∀ r ∈ ranks_pieces bs, r.length = 8 ∧ ∀ c, some c ∈ r → c ∈ piece_symbols := by
  intro m
  induction m with
  | zero =>
    intro bs hlen r hr
    have hnil : bs = [] := List.eq_nil_of_length_eq_zero (by omega)
    subst hnil
    simp [ranks_pieces] at hr
  | succ m ih =>
    intro bs hlen r hr
    rcases bs with _ | ⟨b0, bs⟩
    · simp at hlen
    rcases bs with _ | ⟨b1, bs⟩
    · simp at hlen; omega
    rcases bs with _ | ⟨b2, bs⟩
    · simp at hlen; omega
    rcases bs with _ | ⟨b3, rest⟩
    · simp at hlen; omega
    have hrest : rest.length = 4 * m := by simp at hlen; omega
    simp only [ranks_pieces, List.mem_cons] at hr
    rcases hr with rfl | hr
    · refine ⟨rfl, ?_⟩
      intro c hc
      simp only [List.mem_cons, List.not_mem_nil, or_false] at hc
      rcases hc with h | h | h | h | h | h | h | h <;>
        exact (piece_of_nibble_good _ c h.symm).1
    · exact ih rest hrest r hr

theorem map_snd_pairs_from :
    ∀ (m : Nat) (bs : List Nat), bs.length = 4 * m → ∀ i,
      (pairs_from bs i).map Prod.snd = (ranks_pieces bs).flatten := by
  intro m
  induction m with
  | zero =>
    intro bs hlen i
    have hnil : bs = [] := List.eq_nil_of_length_eq_zero (by omega)
    subst hnil
    rfl
  | succ m ih =>
    intro bs hlen i
    rcases bs with _ | ⟨b0, bs⟩
    · simp at hlen
    rcases bs with _ | ⟨b1, bs⟩
    · simp at hlen; omega
    rcases bs with _ | ⟨b2, bs⟩
    · simp at hlen; omega
    rcases bs with _ | ⟨b3, rest⟩
    · simp at hlen; omega
    have hrest : rest.length = 4 * m := by simp at hlen; omega
    simp only [pairs_from, ranks_pieces, List.map_cons, List.flatten_cons]
    rw [ih rest hrest (i + 1 + 1 + 1 + 1)]
    simp

theorem pairs_from_fst :
    ∀ (bs : List Nat) (i j : Nat) (p : Nat × Option Char),
      (pairs_from bs i)[j]? = some p → p.1 = 63 - (2 * i + j) ∧ j < 2 * bs.length := by
  intro bs
  induction bs with
  | nil => intro i j p h; simp [pairs_from] at h
  | cons b rest ih =>
    intro i j p h
    match j with
    | 0 =>
      simp only [pairs_from, List.getElem?_cons_zero] at h
      injection h with h
      subst h
      exact ⟨by simp; omega, by simp⟩
    | 1 =>
      simp only [pairs_from, List.getElem?_cons_succ, List.getElem?_cons_zero] at h
      injection h with h
      subst h
      exact ⟨by simp; omega, by simp; omega⟩
    | j + 2 =>
      simp only [pairs_from, List.getElem?_cons_succ] at h
      obtain ⟨h1, h2⟩ := ih (i + 1) j p h
      exact ⟨by rw [h1]; omega, by simp; omega⟩

theorem compare_diffs_all_match (target : List Char) :
    ∀ pairs : List (Nat × Option Char),
      (∀ p ∈ pairs, target[p.1]? = some (marker_of p.2) ∧
        ∀ c, p.2 = some c → c ∈ piece_symbols) →
      compare_diffs target pairs = some [] := by
  intro pairs
  induction pairs with
  | nil => intro _; rfl
  | cons p t ih =>
    intro hall
    obtain ⟨sq, pc⟩ := p
    obtain ⟨htgt, hsym⟩ := hall (sq, pc) (by simp)
    have hrest := ih (fun q hq => hall q (List.mem_cons_of_mem _ hq))
    cases pc with
    | none =>
      simp only [marker_of] at htgt
      simp [compare_diffs, htgt, hrest]
    | some c =>
      have hcs : c ∈ piece_symbols := hsym c rfl
      have hprops := piece_symbols_props c hcs
      simp only [marker_of] at htgt
      simp [compare_diffs, htgt, hrest, piece_from_symbol, hcs, hprops.2.2.2.1]

theorem takeWhile_no_space :
    ∀ (l : List Char), (∀ ch ∈ l, ch ≠ ' ') → l.takeWhile (fun c => c ≠ ' ') = l := by
  intro l
  induction l with
  | nil => intro _; rfl
  | cons c t ih =>
    intro h
    have hc : c ≠ ' ' := h c (by simp)
    have ht := ih (fun x hx => h x (List.mem_cons_of_mem c hx))
    simp only [List.takeWhile_cons]
    simp [hc, ht]
    intro x hx
    exact h x (List.mem_cons_of_mem c hx)

theorem field_no_space (l : List Char) (h : ∀ ch ∈ l, ch ≠ ' ') :
    (l.dropWhile (fun c => c = ' ')).takeWhile (fun c => c ≠ ' ') = l := by
  cases l with
  | nil => rfl
  | cons c t =>
    have hc : c ≠ ' ' := h c (by simp)
    have hd : (c :: t).dropWhile (fun c => c = ' ') = c :: t := by
      simp [List.dropWhile_cons, hc]
    rw [hd]
    exact takeWhile_no_space (c :: t) h

theorem flatten_concat_rows (c : Char) :
    ∀ rows : List (List Char), rows ≠ [] →
      (rows.map (fun r => r ++ [c])).flatten = join_char c rows ++ [c] := by
  intro rows
  induction rows with
  | nil => intro h; exact absurd rfl h
  | cons x t ih =>
    intro _
    cases t with
    | nil => simp [join_char]
    | cons y t2 =>
      simp only [List.map_cons, List.flatten_cons, join_char] at ih ⊢
      rw [ih (by simp)]
      simp [List.append_assoc]

theorem join_char_ne_nil (sep : Char) (rows : List (List Char)) (h : 2 ≤ rows.length) :
    join_char sep rows ≠ [] := by
  rcases rows with _ | ⟨x, _ | ⟨y, t⟩⟩
  · simp at h
  · simp at h
  · simp [join_char]

theorem expand_char_mem (c0 ch : Char) (h : ch ∈ expand_char c0) : ch = '1' ∨ ch = c0 := by
  unfold expand_char at h
  split_ifs at h
  · exact Or.inl (List.eq_of_mem_replicate h)
  · simp at h
    exact Or.inr h

/-- C4: for every 32-byte buffer whose nibbles all have piece-symbol
mappings, comparing the stored state against the notation string just
produced from that same state returns an empty difference list:
`compare_board_state_to_fen(board_state_as_fen())` is `[]`. -/
theorem C4_fen_roundtrip (bs : List Nat) (hlen : bs.length = 32)
    (hm : ∀ b ∈ bs, (convertDict (b % 16)).isSome ∧ (convertDict (b / 16)).isSome) :
    ∃ f, board_state_as_fen bs = some f ∧ compare_board_state_to_fen bs f = some [] := by
  have hdec : board_state_as_square_and_piece bs = some (pairs_from bs 0) := by
    unfold board_state_as_square_and_piece
    rw [if_neg (by omega), List.take_of_length_le (by omega)]
    exact decode_squares_eq_pairs_from bs 0 hm
  have hlen4 : bs.length = 4 * 8 := by omega
  have hRlen : (ranks_pieces bs).length = 8 := ranks_pieces_length 8 bs hlen4
  have hRfacts := ranks_pieces_facts 8 bs hlen4
  have hrowchars : ∀ r ∈ ranks_pieces bs, ∀ ch ∈ rle_full r,
      (ch.isDigit = true ∨ ch ∈ piece_symbols) ∧ ch ≠ '/' ∧ ch ≠ ' ' := by
    intro r hr
    obtain ⟨hr8, hrg⟩ := hRfacts r hr
    exact rle_full_chars r (by omega) hrg
  have hrows_ne : (ranks_pieces bs).map rle_full ≠ [] := by
    intro hnil
    have := congrArg List.length hnil
    simp [hRlen] at this
  have hfold := foldl_fen_step_board 8 bs [] hlen4 (by omega)
  rw [show (4 : Nat) * (8 - 8) = 0 from rfl] at hfold
  have hraw : ((ranks_pieces bs).map (fun r => rle_full r ++ ['/'])).flatten
      = join_char '/' ((ranks_pieces bs).map rle_full) ++ ['/'] := by
    rw [show (ranks_pieces bs).map (fun r => rle_full r ++ ['/'])
        = ((ranks_pieces bs).map rle_full).map (fun r => r ++ ['/']) by rw [List.map_map]; rfl]
    exact flatten_concat_rows '/' _ hrows_ne
  rw [hraw, List.nil_append] at hfold
  have hfold1 : ((pairs_from bs 0).foldl fen_step ([], 0)).1
      = join_char '/' ((ranks_pieces bs).map rle_full) ++ ['/'] := by rw [hfold]
  have hsplit_raw :
      split_char '/' (join_char '/' ((ranks_pieces bs).map rle_full) ++ ['/']).dropLast
        = (ranks_pieces bs).map rle_full := by
    rw [List.dropLast_concat]
    refine split_join '/' _ hrows_ne ?_
    intro r hr hin
    rcases List.mem_map.mp hr with ⟨r0, hr0, rfl⟩
    exact ((hrowchars r0 hr0 '/' hin).2.1) rfl
  refine ⟨join_char '/' (((ranks_pieces bs).map rle_full).map List.reverse), ?_, ?_⟩
  · unfold board_state_as_fen
    rw [hdec]
    simp only [Option.bind_eq_bind, Option.some_bind]
    rw [hfold1, hsplit_raw]
  · unfold compare_board_state_to_fen
    have hFchars : ∀ ch ∈ join_char '/' (((ranks_pieces bs).map rle_full).map List.reverse),
        ch ≠ ' ' := by
      intro ch hch
      rcases join_char_chars '/' _ ch hch with rfl | ⟨row, hrow, hin⟩
      · decide
      · rcases List.mem_map.mp hrow with ⟨r1, hr1, rfl⟩
        rcases List.mem_map.mp hr1 with ⟨r0, hr0, rfl⟩
        exact (hrowchars r0 hr0 ch (List.mem_reverse.mp hin)).2.2
    have hFne : join_char '/' (((ranks_pieces bs).map rle_full).map List.reverse) ≠ [] := by
      refine join_char_ne_nil '/' _ ?_
      simp [hRlen]
    have hcf : convert_fen (join_char '/' (((ranks_pieces bs).map rle_full).map List.reverse))
        = some ((join_char '/'
            (((ranks_pieces bs).map rle_full).map List.reverse)).flatMap expand_char) := by
      unfold convert_fen
      rw [field_no_space _ hFchars, if_neg hFne]
    rw [hcf, hdec]
    simp only [Option.bind_eq_bind, Option.some_bind]
    have hsp : split_char '/'
        ((join_char '/' (((ranks_pieces bs).map rle_full).map List.reverse)).flatMap expand_char)
        = (ranks_pieces bs).map (fun r => (r.map marker_of).reverse) := by
      rw [expand_join]
      have hrw : ((((ranks_pieces bs).map rle_full).map List.reverse).map
            (fun r => r.flatMap expand_char))
          = (ranks_pieces bs).map (fun r => (r.map marker_of).reverse) := by
        rw [List.map_map, List.map_map]
        refine List.map_congr_left ?_
        intro r hr
        obtain ⟨hr8, hrg⟩ := hRfacts r hr
        simp only [Function.comp]
        exact expand_rev_rle_full r (by omega) hrg
      rw [hrw]
      refine split_join '/' _ ?_ ?_
      · intro hnil
        have := congrArg List.length hnil
        simp [hRlen] at this
      · intro row hrow hin
        rcases List.mem_map.mp hrow with ⟨r0, hr0, rfl⟩
        have hin2 : '/' ∈ r0.map marker_of := List.mem_reverse.mp hin
        rcases List.mem_map.mp hin2 with ⟨p, hp, hmp⟩
        obtain ⟨hr8, hrg⟩ := hRfacts r0 hr0
        cases p with
        | none => exact absurd hmp (by decide)
        | some c => exact (piece_symbols_props c (hrg c hp)).2.1 hmp
    rw [hsp]
    have htgt_eq : (((ranks_pieces bs).map (fun r => (r.map marker_of).reverse)).reverse).flatten
        = (((pairs_from bs 0).map Prod.snd).map marker_of).reverse := by
      rw [map_snd_pairs_from 8 bs hlen4 0, List.map_flatten, List.reverse_flatten, List.map_map]
      rfl
    rw [htgt_eq]
    refine compare_diffs_all_match _ _ ?_
    intro p hp
    obtain ⟨j, hj⟩ := List.mem_iff_getElem?.mp hp
    obtain ⟨hfst, hjlt⟩ := pairs_from_fst bs 0 j p hj
    have hj64 : j < 64 := by rw [hlen] at hjlt; omega
    have hlen_md : ((((pairs_from bs 0).map Prod.snd).map marker_of)).length = 64 := by
      simp [pairs_from_length, hlen]
    constructor
    · rw [hfst]
      have h63 : (63 : Nat) - (2 * 0 + j) = 63 - j := by omega
      rw [h63, List.getElem?_reverse (by rw [hlen_md]; omega), hlen_md]
      have hidx2 : 64 - 1 - (63 - j) = j := by omega
      rw [hidx2, List.getElem?_map, List.getElem?_map, hj]
      rfl
    · intro c hc
      have hsnd : p.2 ∈ (pairs_from bs 0).map Prod.snd := List.mem_map_of_mem _ hp
      rw [map_snd_pairs_from 8 bs hlen4 0] at hsnd
      rcases List.mem_flatten.mp hsnd with ⟨r, hr, hpr⟩
      obtain ⟨_, hrg⟩ := hRfacts r hr
      rw [hc] at hpr
      exact hrg c hpr

/-- Witness for C4: the all-empty buffer (notation 8/8/8/8/8/8/8/8). -/
theorem C4_fen_roundtrip_witness :
    ∃ f, board_state_as_fen (List.replicate 32 0) = some f ∧
      compare_board_state_to_fen (List.replicate 32 0) f = some [] :=
  C4_fen_roundtrip (List.replicate 32 0) (by decide)
    (by intro b hb; rw [List.eq_of_mem_replicate hb]; decide)
